import Mathlib

/-!
Verification development for the obmc-console socket handler
(src/socket-handler.c).  The C functions are shallowly embedded as
executable Lean definitions over lists of bytes (represented as `Nat`),
with kernel-level side effects (break signals, timer arming, descriptor
operations) reified as explicit result fields or action lists.
-/

set_option maxHeartbeats 1000000

/-! ## Escape parser (process_buffer_range) -/

/-- The shared console escape-parser state (`enum console state`). -/
inductive EscState
  | escape_idle
  | escape_cr
  | escape_lf
  | escape_leader
deriving DecidableEq, Repr

/-- Result of one `process_buffer_range` call: bytes passed to
`console_data_out`, number of `tcsendbreak` calls, the new parser state,
and the number of input bytes consumed (`cursor - begin`). -/
structure PBR where
  out : List Nat
  brk : Nat
  st : EscState
  used : Nat
deriving DecidableEq, Repr

/-- Index of the first occurrence of `c`, as computed by `memchr(begin, c, n)`. -/
def memchr (c : Nat) : List Nat → Option Nat
  | [] => none
  | b :: rest => if b = c then some 0 else (memchr c rest).map (· + 1)

/-- Faithful embedding of `process_buffer_range` over the byte range `l`
in state `s`.  Byte values: 13 = CR, 10 = LF, 126 = tilde, 66 = 'B'. -/
def process_buffer_range (s : EscState) (l : List Nat) : PBR :=
  match l with
  | [] => ⟨[], 0, s, 0⟩
  | b :: _ =>
    match s with
    | .escape_idle =>
      match memchr 13 l with
      | some i => ⟨l.take (i + 1), 0, .escape_cr, i + 1⟩
      | none =>
        match memchr 10 l with
        | some i => ⟨l.take (i + 1), 0, .escape_lf, i + 1⟩
        | none => ⟨l, 0, .escape_idle, l.length⟩
    | .escape_cr =>
      if b = 10 then ⟨[10], 0, .escape_lf, 1⟩
      else if b = 126 then ⟨[], 0, .escape_leader, 1⟩
      else ⟨[], 0, .escape_idle, 0⟩
    | .escape_lf =>
      if b = 126 then ⟨[], 0, .escape_leader, 1⟩
      else ⟨[], 0, .escape_idle, 0⟩
    | .escape_leader =>
      if b = 66 then ⟨[], 1, .escape_idle, 1⟩
      else if b = 126 then ⟨[], 0, .escape_idle, 0⟩
      else ⟨[126], 0, .escape_idle, 0⟩

/-- Result of feeding a whole read through the caller loop of
`client_poll`: output bytes, break count, final state, and the
unconsumed remainder (empty when the loop ran to completion). -/
structure FeedRes where
  out : List Nat
  brk : Nat
  st : EscState
  rem : List Nat
deriving DecidableEq, Repr

/-- The `while (begin && begin < end)` loop of `client_poll`, with an
explicit fuel bound (the loop is proved to terminate within the fuel
supplied by `feed`). -/
def runChunkF : Nat → EscState → List Nat → FeedRes
  | 0, s, l => ⟨[], 0, s, l⟩
  | fuel + 1, s, l =>
    match l with
    | [] => ⟨[], 0, s, []⟩
    | _ :: _ =>
      let r := process_buffer_range s l
      let t := runChunkF fuel r.st (l.drop r.used)
      ⟨r.out ++ t.out, r.brk + t.brk, t.st, t.rem⟩

/-- One read's worth of input fed through the parser loop. -/
def feed (s : EscState) (l : List Nat) : FeedRes :=
  runChunkF (2 * l.length + 2) s l

/-- Output, break count and final state of a parser run. -/
structure ByteRes where
  out : List Nat
  brk : Nat
  st : EscState
deriving DecidableEq, Repr

/-- Reference byte-at-a-time transition for the idle state. -/
def stepIdle (b : Nat) : ByteRes :=
  ⟨[b], 0, if b = 13 then .escape_cr else if b = 10 then .escape_lf else .escape_idle⟩

/-- Reference byte-at-a-time transition of the escape machine (the
net effect of the parser on one byte, re-presentations resolved). -/
def stepB (s : EscState) (b : Nat) : ByteRes :=
  match s with
  | .escape_idle => stepIdle b
  | .escape_cr =>
    if b = 10 then ⟨[10], 0, .escape_lf⟩
    else if b = 126 then ⟨[], 0, .escape_leader⟩
    else stepIdle b
  | .escape_lf =>
    if b = 126 then ⟨[], 0, .escape_leader⟩
    else stepIdle b
  | .escape_leader =>
    if b = 66 then ⟨[], 1, .escape_idle⟩
    else if b = 126 then stepIdle b
    else ⟨126 :: (stepIdle b).out, (stepIdle b).brk, (stepIdle b).st⟩

/-- Reference machine folded over a byte list. -/
def runBytes : EscState → List Nat → ByteRes
  | s, [] => ⟨[], 0, s⟩
  | s, b :: rest =>
    let r := stepB s b
    let t := runBytes r.st rest
    ⟨r.out ++ t.out, r.brk + t.brk, t.st⟩

/-- Successive reads fed through the parser loop (state carried across
reads, as the console's state field is). -/
def feedChunks : EscState → List (List Nat) → ByteRes
  | s, [] => ⟨[], 0, s⟩
  | s, c :: cs =>
    let r := feed s c
    let t := feedChunks r.st cs
    ⟨r.out ++ t.out, r.brk + t.brk, t.st⟩

/-- Newline-then-tilde never occurs (no byte pair of the input begins an
escape sequence of the grammar). -/
def noNT : List Nat → Bool
  | a :: b :: rest => ((!(a = 13 || a = 10)) || (!(b = 126))) && noNT (b :: rest)
  | _ => true

/-- Rank used for the loop's termination measure: a non-consuming call
always lands in the idle state. -/
def escRank : EscState → Nat
  | .escape_idle => 0
  | _ => 1

/-- Final parser state produced by a newline-tilde-free run: lf exactly
when the run ends with a bare LF byte. -/
def tailNL : List Nat → EscState
  | [] => .escape_idle
  | [b] => if b = 10 then .escape_lf else .escape_idle
  | _ :: rest => tailNL rest

/-! ## Flow controller (send_all / client_drain_queue) -/

/-- Outcome of one `send(2)` syscall, as seen by `send_all`: the kernel
accepted some bytes (possibly zero, meaning peer closed), or failed with
EAGAIN/EWOULDBLOCK, EINTR, or another errno. -/
inductive SendRes
  | sent (n : Nat)
  | eagain
  | eintr
  | efail
deriving DecidableEq, Repr

/-- Result of a `send_all` call: the C return value, the bytes the
kernel actually accepted (in order), the buffer offsets at which send
was invoked, whether `client_set_blocked(client, true)` was called, and
the unconsumed tail of the syscall-result trace. -/
structure SAOut where
  ret : Int
  written : List Nat
  reqs : List Nat
  setBlocked : Bool
  rest : List SendRes
deriving DecidableEq, Repr

def SSIZE_MAX : Nat := 2 ^ 63 - 1
def EINVAL : Nat := 22
def ENOSYS : Nat := 38
def ENOMEM : Nat := 12

/-- The retry loop of `send_all` (`for (pos = 0; pos < len; pos += rc)`),
driven by a finite trace of syscall outcomes; `none` when the trace is
exhausted before the loop exits (a modelling artifact, never reached by
theorems that supply a sufficient trace).  A successful send advances by
`min n (len - pos)` since the kernel never reports more bytes than were
requested.  On EINTR the C `continue` jumps to the loop increment, which
runs `pos += rc` with rc = -1: at a positive offset the next attempt is
issued one byte earlier (re-requesting a byte the kernel already
accepted), and at offset 0 the size_t offset wraps to SIZE_MAX, the loop
condition fails, and the function returns `(ssize_t)pos` = -1. -/
def send_all_go (block : Bool) (buf : List Nat) : Nat → List SendRes → Option SAOut
  | pos, trace =>
    if buf.length ≤ pos then some ⟨(pos : Int), [], [], false, trace⟩
    else
      match trace with
      | [] => none
      | .sent n :: rest =>
        if n = 0 then some ⟨-1, [], [pos], false, rest⟩
        else
          match send_all_go block buf (pos + min n (buf.length - pos)) rest with
          | none => none
          | some o =>
            some ⟨o.ret, (buf.drop pos).take (min n (buf.length - pos)) ++ o.written,
              pos :: o.reqs, o.setBlocked, o.rest⟩
      | .eagain :: rest =>
        if block then some ⟨-1, [], [pos], false, rest⟩
        else some ⟨(pos : Int), [], [pos], true, rest⟩
      | .eintr :: rest =>
        if pos = 0 then some ⟨-1, [], [pos], false, rest⟩
        else
          match send_all_go block buf (pos - 1) rest with
          | none => none
          | some o => some ⟨o.ret, o.written, pos :: o.reqs, o.setBlocked, o.rest⟩
      | .efail :: rest => some ⟨-1, [], [pos], false, rest⟩

/-- Faithful embedding of `send_all`: the oversize check, then the retry
loop. -/
def send_all (block : Bool) (buf : List Nat) (trace : List SendRes) : Option SAOut :=
  if SSIZE_MAX < buf.length then some ⟨-(EINVAL : Int), [], [], false, trace⟩
  else send_all_go block buf 0 trace

/-- Result of `client_drain_queue`: the C return value, the argument of
the `ringbuffer_dequeue_commit` call if one was made, the final
`total_len` and `wlen` values, the bytes physically handed to the
socket, the client's blocked flag afterwards, and the unused trace. -/
structure DrainRes where
  ret : Int
  commit : Option Nat
  total : Nat
  wlen : Int
  written : List Nat
  blocked : Bool
  rest : List SendRes
deriving DecidableEq, Repr

/-- The code after `client_drain_queue`'s loop: error check, force-length
check, commit. -/
def cdq_finish (force_len total : Nat) (wlen : Int) (written : List Nat)
    (blocked : Bool) (trace : List SendRes) : DrainRes :=
  if wlen < 0 then ⟨-1, none, total, wlen, written, blocked, trace⟩
  else if force_len ≠ 0 ∧ total < force_len then
    ⟨-1, none, total, wlen, written, blocked, trace⟩
  else ⟨0, some total, total, wlen, written, blocked, trace⟩

/-- The `for (;;)` loop of `client_drain_queue`: peek at the accumulated
offset, stop on an empty run, send with the given blocking mode, break
on a non-positive send result, and stop early once `force_len` bytes
have gone out. -/
def cdq_loop (peek : Nat → List Nat) (block : Bool) (force_len : Nat) :
    Nat → Bool → Nat → Int → List Nat → List SendRes → Option DrainRes
  | 0, _, _, _, _, _ => none
  | fuel + 1, blocked, total, wlen, written, trace =>
    let buf := peek total
    if buf.isEmpty then some (cdq_finish force_len total wlen written blocked trace)
    else
      match send_all block buf trace with
      | none => none
      | some o =>
        if o.ret ≤ 0 then
          some (cdq_finish force_len total o.ret (written ++ o.written)
            (blocked || o.setBlocked) o.rest)
        else
          if force_len ≠ 0 ∧ force_len ≤ total + o.ret.toNat then
            some (cdq_finish force_len (total + o.ret.toNat) o.ret (written ++ o.written)
              (blocked || o.setBlocked) o.rest)
          else
            cdq_loop peek block force_len fuel (blocked || o.setBlocked)
              (total + o.ret.toNat) o.ret (written ++ o.written) o.rest

/-- Faithful embedding of `client_drain_queue`: `block = !!force_len`,
the early return for an already-blocked unforced drain, then the loop. -/
def client_drain_queue (peek : Nat → List Nat) (blocked : Bool) (force_len : Nat)
    (trace : List SendRes) : Option DrainRes :=
  if !(force_len != 0) && blocked then some ⟨0, none, 0, 0, [], blocked, trace⟩
  else cdq_loop peek (force_len != 0) force_len (trace.length + 1) blocked 0 0 [] trace

/-- Modelled from the spec: `ringbuffer_dequeue_peek` is not under src/.
Per §3, the consumer cursor supports a non-destructive peek of a
contiguous run starting at an accumulated offset; `queue` is the pending
(uncommitted) byte sequence and `wrap` is the point at which the ring's
storage splits it into two contiguous runs (`wrap ≥ queue.length` means
a single run). -/
def rb_peek (queue : List Nat) (wrap : Nat) (o : Nat) : List Nat :=
  if o < wrap then (queue.drop o).take (wrap - o) else queue.drop o

/-- Return values of `enum poller_ret`. -/
inductive PollerRet
  | ok
  | remove
deriving DecidableEq, Repr

/-- Return values of `enum ringbuffer_poll_ret`. -/
inductive RbRet
  | ok
  | remove
deriving DecidableEq, Repr

/-- Faithful embedding of `client_timeout`: a blocked client is left
alone (no drain attempt, recovery happens via writability); otherwise an
unforced drain runs and failure removes the client. -/
def client_timeout (blocked : Bool) (peek : Nat → List Nat) (trace : List SendRes) :
    PollerRet × Option DrainRes :=
  if blocked then (.ok, none)
  else
    match client_drain_queue peek false 0 trace with
    | none => (.ok, none)
    | some out => if out.ret = 0 then (.ok, some out) else (.remove, some out)

/-- The POLLOUT branch of `client_poll`: clear the blocked flag, then an
unforced drain; failure closes the client. -/
def client_poll_out (peek : Nat → List Nat) (trace : List SendRes) :
    PollerRet × Option DrainRes :=
  match client_drain_queue peek false 0 trace with
  | none => (.ok, none)
  | some out => if out.ret = 0 then (.ok, some out) else (.remove, some out)

def SOCKET_HANDLER_PKT_SIZE : Nat := 512
def SOCKET_HANDLER_PKT_US_TIMEOUT : Nat := 4000

/-- Side effects of `client_ringbuffer_poll`, in execution order. -/
inductive RbAct
  | setTimeout (usec : Nat)
  | drainQ
  | clearRbc
  | closeClient
deriving DecidableEq, Repr

/-- Result of `client_ringbuffer_poll`: return value, ordered side
effects, and the drain result when a drain ran. -/
structure CRPRes where
  ret : RbRet
  acts : List RbAct
  drained : Option DrainRes
deriving DecidableEq, Repr

/-- Faithful embedding of `client_ringbuffer_poll`: defer and arm the
inactivity timer when no flush is forced and fewer than 512 bytes are
pending; otherwise drain, and on failure clear the rbc reference, close
the client, and return remove. -/
def client_ringbuffer_poll (queue : List Nat) (wrap : Nat) (blocked : Bool)
    (force_len : Nat) (trace : List SendRes) : Option CRPRes :=
  if force_len = 0 ∧ queue.length < SOCKET_HANDLER_PKT_SIZE then
    some ⟨.ok, [.setTimeout SOCKET_HANDLER_PKT_US_TIMEOUT], none⟩
  else
    match client_drain_queue (rb_peek queue wrap) blocked force_len trace with
    | none => none
    | some out =>
      if out.ret = 0 then some ⟨.ok, [.drainQ], some out⟩
      else some ⟨.remove, [.drainQ, .clearRbc, .closeClient], some out⟩

/-! ## Client lifecycle (client_close / socket_poll) -/

/-- Steps of the close sequence, in execution order. -/
inductive CloseAct
  | closeFd (fd : Nat)
  | unregPoller
  | unregRbc
  | removeAt (idx : Nat)
  | freeClient
deriving DecidableEq, Repr

/-- The index-search loop of `client_close` (first occurrence; returns
the length when absent, mirroring the loop running off the end). -/
def findClient (c : Nat) : List Nat → Nat
  | [] => 0
  | x :: rest => if x = c then 0 else findClient c rest + 1

/-- Faithful embedding of `client_close`: close the descriptor,
conditionally unregister the poller and the consumer, locate the client
in the connection array (`assert(idx < sh->n_clients)` — absence is
fatal, modelled as `none`), free it, and compact the array. -/
def client_close (fd : Nat) (hasPoller hasRbc : Bool) (cs : List Nat) (c : Nat) :
    Option (List Nat × List CloseAct) :=
  let idx := findClient c cs
  if idx < cs.length then
    some (cs.take idx ++ cs.drop (idx + 1),
      [CloseAct.closeFd fd]
        ++ (if hasPoller then [CloseAct.unregPoller] else [])
        ++ (if hasRbc then [CloseAct.unregRbc] else [])
        ++ [CloseAct.removeAt idx, CloseAct.freeClient])
  else none

/-- The client-registration step of `socket_poll`: the new client is
appended at index `n_clients`. -/
def socket_accept (cs : List Nat) (c : Nat) : List Nat := cs ++ [c]

/-! ## BackChannel (dbus_create_socket_consumer) -/

def socketName : String := "socket"

/-- Result of `dbus_create_socket_consumer`: return value, descriptors
closed on the failure paths, whether the client structure was freed, and
whether the client was registered into the connection array. -/
structure DbusRes where
  ret : Int
  closedFds : List Nat
  freedClient : Bool
  clientAdded : Bool
deriving DecidableEq, Repr

/-- Faithful embedding of `dbus_create_socket_consumer`: locate the
socket handler by name (else -ENOSYS), create a socketpair (else
-errno), allocate the client (else -ENOMEM, closing both descriptors),
register the consumer (else -ENOMEM, freeing the client and closing both
descriptors), and on success register the client and return the
caller-side descriptor `fds[1]`. -/
def dbus_create_socket_consumer (handlers : List String) (pair : Option (Nat × Nat))
    (pairErrno : Nat) (mallocOk : Bool) (rbcOk : Bool) : DbusRes :=
  if socketName ∉ handlers then ⟨-(ENOSYS : Int), [], false, false⟩
  else
    match pair with
    | none => ⟨-(pairErrno : Int), [], false, false⟩
    | some (fd0, fd1) =>
      if ¬mallocOk then ⟨-(ENOMEM : Int), [fd0, fd1], false, false⟩
      else if ¬rbcOk then ⟨-(ENOMEM : Int), [fd0, fd1], true, false⟩
      else ⟨(fd1 : Int), [], false, true⟩

/-! ## Theorems -/

theorem memchr_eq_none {c : Nat} : ∀ {l : List Nat}, memchr c l = none → c ∉ l := by
  intro l
  induction l with
  | nil => simp
  | cons b rest ih =>
    intro h
    simp only [memchr] at h
    by_cases hb : b = c
    · simp [hb] at h
    · simp only [hb, if_false, Option.map_eq_none'] at h
      simp [hb, ih h]
      intro hc
      exact hb hc.symm

theorem memchr_eq_some {c : Nat} :
    ∀ {l : List Nat} {i : Nat}, memchr c l = some i →
      i < l.length ∧ l[i]? = some c ∧ c ∉ l.take i := by
  intro l
  induction l with
  | nil => intro i h; simp [memchr] at h
  | cons b rest ih =>
    intro i h
    simp only [memchr] at h
    by_cases hb : b = c
    · simp [hb] at h
      subst hb
      simp [← h]
    · simp only [hb, if_false, Option.map_eq_some'] at h
      obtain ⟨j, hj, hi⟩ := h
      obtain ⟨h1, h2, h3⟩ := ih hj
      subst hi
      refine ⟨by simpa using h1, by simpa using h2, ?_⟩
      simp only [List.take_succ_cons, List.mem_cons, not_or]
      exact ⟨fun hc => hb hc.symm, h3⟩

theorem noNT_cons_tail {a : Nat} {l : List Nat} (h : noNT (a :: l) = true) :
    noNT l = true := by
  cases l with
  | nil => simp [noNT]
  | cons b r =>
    simp only [noNT, Bool.and_eq_true] at h
    exact h.2

theorem noNT_append_right : ∀ (a b : List Nat), noNT (a ++ b) = true → noNT b = true := by
  intro a
  induction a with
  | nil => intro b h; simpa using h
  | cons x a' ih =>
    intro b h
    exact ih b (noNT_cons_tail h)

theorem noNT_append_left : ∀ (a b : List Nat), noNT (a ++ b) = true → noNT a = true := by
  intro a
  induction a with
  | nil => intro b _; rfl
  | cons x a' ih =>
    intro b h
    cases a' with
    | nil => rfl
    | cons y a'' =>
      simp only [List.cons_append, noNT, Bool.and_eq_true] at h ⊢
      exact ⟨h.1, by have := ih b h.2; simpa using this⟩

theorem noNT_pair {a b : Nat} {r : List Nat} (h : noNT (a :: b :: r) = true)
    (ha : a = 13 ∨ a = 10) : b ≠ 126 := by
  simp only [noNT, Bool.and_eq_true, Bool.or_eq_true, Bool.not_eq_true',
    decide_eq_false_iff_not, Bool.not_eq_eq_eq_not, Bool.not_true] at h
  rcases h.1 with h1 | h1
  · exfalso
    rcases ha with h' | h' <;> simp [h'] at h1
  · simpa using h1

theorem noNT_of_no_newline : ∀ (l : List Nat), 13 ∉ l → 10 ∉ l → noNT l = true := by
  intro l
  induction l with
  | nil => intro _ _; rfl
  | cons a t ih =>
    intro h13 h10
    cases t with
    | nil => rfl
    | cons b r =>
      simp only [List.mem_cons, not_or] at h13 h10
      simp only [noNT, Bool.and_eq_true]
      constructor
      · have ha13 : a ≠ 13 := fun h => h13.1 h.symm
        have ha10 : a ≠ 10 := fun h => h10.1 h.symm
        simp [ha13, ha10]
      · exact ih (by simp [h13.2]) (by simp [h10.2])

theorem runBytes_cons (s : EscState) (b : Nat) (l : List Nat) :
    runBytes s (b :: l) =
      ⟨(stepB s b).out ++ (runBytes (stepB s b).st l).out,
       (stepB s b).brk + (runBytes (stepB s b).st l).brk,
       (runBytes (stepB s b).st l).st⟩ := rfl

theorem runBytes_append : ∀ (a b : List Nat) (s : EscState),
    runBytes s (a ++ b) =
      ⟨(runBytes s a).out ++ (runBytes (runBytes s a).st b).out,
       (runBytes s a).brk + (runBytes (runBytes s a).st b).brk,
       (runBytes (runBytes s a).st b).st⟩ := by
  intro a
  induction a with
  | nil => intro b s; simp [runBytes]
  | cons x a' ih =>
    intro b s
    rw [List.cons_append, runBytes_cons, ih b (stepB s x).st, runBytes_cons s x a']
    simp [List.append_assoc, Nat.add_assoc]

theorem stepB_cr_other {b : Nat} (h10 : b ≠ 10) (h126 : b ≠ 126) :
    stepB .escape_cr b = stepIdle b := by
  simp [stepB, h10, h126]

theorem stepB_lf_other {b : Nat} (h126 : b ≠ 126) :
    stepB .escape_lf b = stepIdle b := by
  simp [stepB, h126]

theorem runBytes_lf_eq_idle {b : Nat} {r : List Nat} (h126 : b ≠ 126) :
    runBytes .escape_lf (b :: r) = runBytes .escape_idle (b :: r) := by
  simp only [runBytes]
  rw [stepB_lf_other h126]
  rfl

theorem runBytes_cr_eq_idle {b : Nat} {r : List Nat} (h10 : b ≠ 10) (h126 : b ≠ 126) :
    runBytes .escape_cr (b :: r) = runBytes .escape_idle (b :: r) := by
  simp only [runBytes]
  rw [stepB_cr_other h10 h126]
  rfl

theorem tailNL_cases : ∀ (p : List Nat), tailNL p = .escape_idle ∨ tailNL p = .escape_lf := by
  intro p
  induction p with
  | nil => left; rfl
  | cons b rest ih =>
    cases rest with
    | nil =>
      by_cases hb : b = 10
      · right; simp [tailNL, hb]
      · left; simp [tailNL, hb]
    | cons c r => simpa [tailNL] using ih

theorem stepB_idle_plain {b : Nat} (h13 : b ≠ 13) (h10 : b ≠ 10) :
    stepB .escape_idle b = ⟨[b], 0, .escape_idle⟩ := by
  simp [stepB, stepIdle, h13, h10]

/-- A newline-tilde-free, CR-free run is forwarded verbatim by the
byte-level machine from the idle state. -/
theorem runBytes_idle_scan : ∀ (p : List Nat), 13 ∉ p → noNT p = true →
    runBytes .escape_idle p = ⟨p, 0, tailNL p⟩ := by
  intro p
  induction p with
  | nil => intro _ _; rfl
  | cons b rest ih =>
    intro h13 hnt
    have hb13 : b ≠ 13 := fun h => h13 (by simp [h])
    have h13' : 13 ∉ rest := fun h => h13 (by simp [h])
    cases rest with
    | nil =>
      by_cases hb10 : b = 10
      · subst hb10; decide
      · rw [runBytes_cons, stepB_idle_plain hb13 hb10]
        simp [runBytes, tailNL, hb10]
    | cons c r' =>
      have hnt' : noNT (c :: r') = true := noNT_cons_tail hnt
      have hrest := ih h13' hnt'
      by_cases hb10 : b = 10
      · have hc : c ≠ 126 := noNT_pair hnt (Or.inr hb10)
        subst hb10
        rw [runBytes_cons, show stepB .escape_idle 10 = ⟨[10], 0, .escape_lf⟩ from by decide]
        rw [runBytes_lf_eq_idle hc, hrest]
        simp [tailNL]
      · rw [runBytes_cons, stepB_idle_plain hb13 hb10, hrest]
        simp [tailNL]

theorem tailNL_of_no_lf : ∀ (p : List Nat), 10 ∉ p → tailNL p = .escape_idle := by
  intro p
  induction p with
  | nil => intro _; rfl
  | cons b rest ih =>
    intro h10
    cases rest with
    | nil =>
      have : b ≠ 10 := fun h => h10 (by simp [h])
      simp [tailNL, this]
    | cons c r' =>
      simp only [tailNL]
      exact ih (fun h => h10 (by simp [h]))

/-- A run with no newline bytes at all is forwarded verbatim and leaves
the machine idle. -/
theorem runBytes_idle_plain : ∀ (p : List Nat), 13 ∉ p → 10 ∉ p →
    runBytes .escape_idle p = ⟨p, 0, .escape_idle⟩ := by
  intro p h13 h10
  have h := runBytes_idle_scan p h13 (noNT_of_no_newline p h13 h10)
  rw [h, tailNL_of_no_lf p h10]

theorem runChunkF_nil (n : Nat) (s : EscState) : runChunkF n s [] = ⟨[], 0, s, []⟩ := by
  cases n <;> rfl

theorem runChunkF_succ {l : List Nat} (hne : l ≠ []) (n : Nat) (s : EscState) :
    runChunkF (n + 1) s l =
      ⟨(process_buffer_range s l).out ++
         (runChunkF n (process_buffer_range s l).st
           (l.drop (process_buffer_range s l).used)).out,
       (process_buffer_range s l).brk +
         (runChunkF n (process_buffer_range s l).st
           (l.drop (process_buffer_range s l).used)).brk,
       (runChunkF n (process_buffer_range s l).st
         (l.drop (process_buffer_range s l).used)).st,
       (runChunkF n (process_buffer_range s l).st
         (l.drop (process_buffer_range s l).used)).rem⟩ := by
  cases l with
  | nil => exact absurd rfl hne
  | cons b rest => rfl

theorem pbr_idle_some13 {l : List Nat} (hne : l ≠ []) {i : Nat}
    (h : memchr 13 l = some i) :
    process_buffer_range .escape_idle l = ⟨l.take (i + 1), 0, .escape_cr, i + 1⟩ := by
  cases l with
  | nil => exact absurd rfl hne
  | cons b rest => simp [process_buffer_range, h]

theorem pbr_idle_some10 {l : List Nat} (hne : l ≠ []) {i : Nat}
    (h13 : memchr 13 l = none) (h10 : memchr 10 l = some i) :
    process_buffer_range .escape_idle l = ⟨l.take (i + 1), 0, .escape_lf, i + 1⟩ := by
  cases l with
  | nil => exact absurd rfl hne
  | cons b rest => simp [process_buffer_range, h13, h10]

theorem pbr_idle_none {l : List Nat} (hne : l ≠ [])
    (h13 : memchr 13 l = none) (h10 : memchr 10 l = none) :
    process_buffer_range .escape_idle l = ⟨l, 0, .escape_idle, l.length⟩ := by
  cases l with
  | nil => exact absurd rfl hne
  | cons b rest => simp [process_buffer_range, h13, h10]

theorem runBytes_idle_take13 {l : List Nat} {i : Nat}
    (hget : l[i]? = some 13) (hnotin : 13 ∉ l.take i) (hnt : noNT (l.take (i + 1)) = true) :
    runBytes .escape_idle (l.take (i + 1)) = ⟨l.take (i + 1), 0, .escape_cr⟩ := by
  have htake : l.take (i + 1) = l.take i ++ [13] := by
    rw [List.take_succ, hget]
    rfl
  have hnt' : noNT (l.take i) = true := by
    apply noNT_append_left (l.take i) [13]
    rw [← htake]
    exact hnt
  rw [htake, runBytes_append, runBytes_idle_scan (l.take i) hnotin hnt']
  have h13step : runBytes (tailNL (l.take i)) [13] = ⟨[13], 0, .escape_cr⟩ := by
    rcases tailNL_cases (l.take i) with h | h <;> rw [h] <;> decide
  simp [h13step]

theorem runBytes_idle_take10 {l : List Nat} {i : Nat}
    (hget : l[i]? = some 10) (h13 : 13 ∉ l.take (i + 1)) (h10 : 10 ∉ l.take i) :
    runBytes .escape_idle (l.take (i + 1)) = ⟨l.take (i + 1), 0, .escape_lf⟩ := by
  have htake : l.take (i + 1) = l.take i ++ [10] := by
    rw [List.take_succ, hget]
    rfl
  have h13' : 13 ∉ l.take i := by
    intro hm
    exact h13 (by rw [htake]; exact List.mem_append_left _ hm)
  rw [htake, runBytes_append, runBytes_idle_plain (l.take i) h13' h10]
  have hstep : runBytes .escape_idle [10] = ⟨[10], 0, .escape_lf⟩ := by decide
  simp [hstep]

/-- Core equivalence: the chunk loop of `client_poll` computes the same
output, breaks and final state as the byte-at-a-time reference machine,
for any chunk that is CR-free or contains no newline-then-tilde pair,
and it consumes the entire chunk. -/
theorem runChunkF_eq_runBytes : ∀ (fuel : Nat) (s : EscState) (l : List Nat),
    2 * l.length + escRank s < fuel →
    (13 ∉ l ∨ noNT l = true) →
    runChunkF fuel s l =
      ⟨(runBytes s l).out, (runBytes s l).brk, (runBytes s l).st, []⟩ := by
  intro fuel
  induction fuel with
  | zero => intro s l h _; omega
  | succ n ih =>
    intro s l hfuel hcond
    cases l with
    | nil => simp [runChunkF_nil, runBytes]
    | cons b rest =>
      have hne : (b :: rest : List Nat) ≠ [] := by simp
      cases s with
      | escape_idle =>
        cases h13 : memchr 13 (b :: rest) with
        | some i =>
          obtain ⟨hilt, hget, hnotin⟩ := memchr_eq_some h13
          have h13mem : (13 : Nat) ∈ b :: rest := List.getElem?_mem hget
          have hnt : noNT (b :: rest) = true := by
            rcases hcond with h | h
            · exact absurd h13mem h
            · exact h
          have hsplit : (b :: rest : List Nat) =
              (b :: rest).take (i + 1) ++ (b :: rest).drop (i + 1) :=
            (List.take_append_drop _ _).symm
          have hntA : noNT ((b :: rest).take (i + 1)) = true := by
            apply noNT_append_left _ ((b :: rest).drop (i + 1))
            rw [← hsplit]; exact hnt
          have hntB : noNT ((b :: rest).drop (i + 1)) = true := by
            apply noNT_append_right ((b :: rest).take (i + 1))
            rw [← hsplit]; exact hnt
          have hdlen : ((b :: rest).drop (i + 1)).length = (b :: rest).length - (i + 1) :=
            List.length_drop _ _
          have hfuel' : 2 * ((b :: rest).drop (i + 1)).length + escRank .escape_cr < n := by
            simp only [escRank] at hfuel ⊢
            omega
          have ht := ih .escape_cr ((b :: rest).drop (i + 1)) hfuel' (Or.inr hntB)
          rw [runChunkF_succ hne, pbr_idle_some13 hne h13]
          simp only [ht]
          have hA := runBytes_idle_take13 hget hnotin hntA
          conv_rhs => rw [hsplit]
          rw [runBytes_append, hA]
        | none =>
          have h13not : 13 ∉ (b :: rest : List Nat) := memchr_eq_none h13
          cases h10 : memchr 10 (b :: rest) with
          | some i =>
            obtain ⟨hilt, hget, hnotin⟩ := memchr_eq_some h10
            have hsplit : (b :: rest : List Nat) =
                (b :: rest).take (i + 1) ++ (b :: rest).drop (i + 1) :=
              (List.take_append_drop _ _).symm
            have h13A : 13 ∉ (b :: rest).take (i + 1) := by
              intro hm
              exact h13not (by rw [hsplit]; exact List.mem_append_left _ hm)
            have h13B : 13 ∉ (b :: rest).drop (i + 1) := by
              intro hm
              exact h13not (by rw [hsplit]; exact List.mem_append_right _ hm)
            have hfuel' : 2 * ((b :: rest).drop (i + 1)).length + escRank .escape_lf < n := by
              have hdlen : ((b :: rest).drop (i + 1)).length =
                  (b :: rest).length - (i + 1) := List.length_drop _ _
              simp only [escRank] at hfuel ⊢
              omega
            have ht := ih .escape_lf ((b :: rest).drop (i + 1)) hfuel' (Or.inl h13B)
            rw [runChunkF_succ hne, pbr_idle_some10 hne h13 h10]
            simp only [ht]
            have hA := runBytes_idle_take10 hget h13A hnotin
            conv_rhs => rw [hsplit]
            rw [runBytes_append, hA]
          | none =>
            have h10not : 10 ∉ (b :: rest : List Nat) := memchr_eq_none h10
            rw [runChunkF_succ hne, pbr_idle_none hne h13 h10]
            simp only [List.drop_length, runChunkF_nil]
            rw [runBytes_idle_plain _ h13not h10not]
            simp
      | escape_cr =>
        have hcond' : 13 ∉ rest ∨ noNT rest = true := by
          rcases hcond with h | h
          · exact Or.inl (fun hm => h (by simp [hm]))
          · exact Or.inr (noNT_cons_tail h)
        by_cases hb10 : b = 10
        · subst hb10
          have hfuel' : 2 * rest.length + escRank .escape_lf < n := by
            simp only [escRank, List.length_cons] at hfuel ⊢
            omega
          have ht := ih .escape_lf rest hfuel' hcond'
          rw [runChunkF_succ hne]
          have hpbr : process_buffer_range .escape_cr (10 :: rest) =
              ⟨[10], 0, .escape_lf, 1⟩ := rfl
          rw [hpbr]
          simp only [List.drop_succ_cons, List.drop_zero, ht]
          rw [runBytes_cons]
          have : stepB .escape_cr 10 = ⟨[10], 0, .escape_lf⟩ := by decide
          rw [this]
        · by_cases hb126 : b = 126
          · subst hb126
            have hfuel' : 2 * rest.length + escRank .escape_leader < n := by
              simp only [escRank, List.length_cons] at hfuel ⊢
              omega
            have ht := ih .escape_leader rest hfuel' hcond'
            rw [runChunkF_succ hne]
            have hpbr : process_buffer_range .escape_cr (126 :: rest) =
                ⟨[], 0, .escape_leader, 1⟩ := rfl
            rw [hpbr]
            simp only [List.drop_succ_cons, List.drop_zero, ht]
            rw [runBytes_cons]
            have : stepB .escape_cr 126 = ⟨[], 0, .escape_leader⟩ := by decide
            rw [this]
          · have hfuel' : 2 * (b :: rest).length + escRank .escape_idle < n := by
              simp only [escRank, List.length_cons] at hfuel ⊢
              omega
            have ht := ih .escape_idle (b :: rest) hfuel' hcond
            rw [runChunkF_succ hne]
            have hpbr : process_buffer_range .escape_cr (b :: rest) =
                ⟨[], 0, .escape_idle, 0⟩ := by
              simp [process_buffer_range, hb10, hb126]
            rw [hpbr]
            simp only [List.drop_zero, ht]
            rw [runBytes_cr_eq_idle hb10 hb126]
            simp
      | escape_lf =>
        have hcond' : 13 ∉ rest ∨ noNT rest = true := by
          rcases hcond with h | h
          · exact Or.inl (fun hm => h (by simp [hm]))
          · exact Or.inr (noNT_cons_tail h)
        by_cases hb126 : b = 126
        · subst hb126
          have hfuel' : 2 * rest.length + escRank .escape_leader < n := by
            simp only [escRank, List.length_cons] at hfuel ⊢
            omega
          have ht := ih .escape_leader rest hfuel' hcond'
          rw [runChunkF_succ hne]
          have hpbr : process_buffer_range .escape_lf (126 :: rest) =
              ⟨[], 0, .escape_leader, 1⟩ := rfl
          rw [hpbr]
          simp only [List.drop_succ_cons, List.drop_zero, ht]
          rw [runBytes_cons]
          have : stepB .escape_lf 126 = ⟨[], 0, .escape_leader⟩ := by decide
          rw [this]
        · have hfuel' : 2 * (b :: rest).length + escRank .escape_idle < n := by
            simp only [escRank, List.length_cons] at hfuel ⊢
            omega
          have ht := ih .escape_idle (b :: rest) hfuel' hcond
          rw [runChunkF_succ hne]
          have hpbr : process_buffer_range .escape_lf (b :: rest) =
              ⟨[], 0, .escape_idle, 0⟩ := by
            simp [process_buffer_range, hb126]
          rw [hpbr]
          simp only [List.drop_zero, ht]
          rw [runBytes_lf_eq_idle hb126]
          simp
      | escape_leader =>
        have hcond' : 13 ∉ rest ∨ noNT rest = true := by
          rcases hcond with h | h
          · exact Or.inl (fun hm => h (by simp [hm]))
          · exact Or.inr (noNT_cons_tail h)
        by_cases hb66 : b = 66
        · subst hb66
          have hfuel' : 2 * rest.length + escRank .escape_idle < n := by
            simp only [escRank, List.length_cons] at hfuel ⊢
            omega
          have ht := ih .escape_idle rest hfuel' hcond'
          rw [runChunkF_succ hne]
          have hpbr : process_buffer_range .escape_leader (66 :: rest) =
              ⟨[], 1, .escape_idle, 1⟩ := rfl
          rw [hpbr]
          simp only [List.drop_succ_cons, List.drop_zero, ht]
          rw [runBytes_cons]
          have : stepB .escape_leader 66 = ⟨[], 1, .escape_idle⟩ := by decide
          rw [this]
        · by_cases hb126 : b = 126
          · subst hb126
            have hfuel' : 2 * (126 :: rest).length + escRank .escape_idle < n := by
              simp only [escRank, List.length_cons] at hfuel ⊢
              omega
            have ht := ih .escape_idle (126 :: rest) hfuel' hcond
            rw [runChunkF_succ hne]
            have hpbr : process_buffer_range .escape_leader (126 :: rest) =
                ⟨[], 0, .escape_idle, 0⟩ := rfl
            rw [hpbr]
            simp only [List.drop_zero, ht]
            have heq : runBytes .escape_leader (126 :: rest) =
                runBytes .escape_idle (126 :: rest) := by
              rw [runBytes_cons, runBytes_cons]
              have : stepB .escape_leader 126 = stepB .escape_idle 126 := by decide
              rw [this]
            rw [heq]
            simp
          · have hfuel' : 2 * (b :: rest).length + escRank .escape_idle < n := by
              simp only [escRank, List.length_cons] at hfuel ⊢
              omega
            have ht := ih .escape_idle (b :: rest) hfuel' hcond
            rw [runChunkF_succ hne]
            have hpbr : process_buffer_range .escape_leader (b :: rest) =
                ⟨[126], 0, .escape_idle, 0⟩ := by
              simp [process_buffer_range, hb66, hb126]
            rw [hpbr]
            simp only [List.drop_zero, ht]
            have hrhs : runBytes .escape_leader (b :: rest) =
                ⟨126 :: (runBytes .escape_idle (b :: rest)).out,
                 (runBytes .escape_idle (b :: rest)).brk,
                 (runBytes .escape_idle (b :: rest)).st⟩ := by
              rw [runBytes_cons, runBytes_cons]
              have hstep : stepB .escape_leader b =
                  ⟨126 :: (stepIdle b).out, (stepIdle b).brk, (stepIdle b).st⟩ := by
                simp [stepB, hb66, hb126]
              have hstep' : stepB .escape_idle b = stepIdle b := rfl
              rw [hstep, hstep']
              simp
            rw [hrhs]
            simp
example : feed .escape_idle [104, 13, 126, 66, 119] =
    ⟨[104, 13, 119], 1, .escape_idle, []⟩ := by decide

example : feed .escape_idle [10, 126, 126] = ⟨[10, 126], 0, .escape_idle, []⟩ := by
  decide

example : feed .escape_idle [13, 10, 126, 66] = ⟨[13, 10], 1, .escape_idle, []⟩ := by
  decide

theorem escRank_le_one (s : EscState) : escRank s ≤ 1 := by
  cases s <;> simp [escRank]

theorem escRank_of_ne_idle {s : EscState} (h : s ≠ .escape_idle) : escRank s = 1 := by
  cases s with
  | escape_idle => exact absurd rfl h
  | escape_cr => rfl
  | escape_lf => rfl
  | escape_leader => rfl

theorem feed_eq_runBytes {s : EscState} {l : List Nat}
    (hcond : 13 ∉ l ∨ noNT l = true) :
    feed s l = ⟨(runBytes s l).out, (runBytes s l).brk, (runBytes s l).st, []⟩ := by
  apply runChunkF_eq_runBytes
  · have := escRank_le_one s
    omega
  · exact hcond

theorem join_split : ∀ (cs : List (List Nat)) (c : List Nat), c ∈ cs →
    ∃ a b, cs.flatten = a ++ (c ++ b) := by
  intro cs
  induction cs with
  | nil => intro c h; simp at h
  | cons d cs' ih =>
    intro c h
    rcases List.mem_cons.mp h with h | h
    · subst h
      exact ⟨[], cs'.flatten, by simp⟩
    · obtain ⟨a, b, hab⟩ := ih c h
      exact ⟨d ++ a, b, by simp [hab, List.append_assoc]⟩

theorem feedChunks_cons (s : EscState) (c : List Nat) (cs : List (List Nat)) :
    feedChunks s (c :: cs) =
      ⟨(feed s c).out ++ (feedChunks (feed s c).st cs).out,
       (feed s c).brk + (feedChunks (feed s c).st cs).brk,
       (feedChunks (feed s c).st cs).st⟩ := rfl

theorem feedChunks_eq_runBytes : ∀ (cs : List (List Nat)) (s : EscState),
    (∀ c ∈ cs, 13 ∉ c ∨ noNT c = true) →
    feedChunks s cs = runBytes s cs.flatten := by
  intro cs
  induction cs with
  | nil => intro s _; rfl
  | cons c cs' ih =>
    intro s hc
    have h1 : feed s c = ⟨(runBytes s c).out, (runBytes s c).brk, (runBytes s c).st, []⟩ :=
      feed_eq_runBytes (hc c (by simp))
    have h2 := ih (runBytes s c).st (fun d hd => hc d (by simp [hd]))
    rw [feedChunks_cons, h1]
    simp only [List.flatten_cons]
    rw [runBytes_append]
    simp [h2]

theorem stepB_cr_eq_idle {b : Nat} (h : b ≠ 126) :
    stepB .escape_cr b = stepB .escape_idle b := by
  by_cases h10 : b = 10
  · subst h10; decide
  · rw [stepB_cr_other h10 h]; rfl

theorem runBytes_cr_eq_idle' {b : Nat} {r : List Nat} (h126 : b ≠ 126) :
    runBytes .escape_cr (b :: r) = runBytes .escape_idle (b :: r) := by
  rw [runBytes_cons, runBytes_cons, stepB_cr_eq_idle h126]

/-- Output identity for newline-tilde-free input from any reachable
state whose pending newline is not about to meet a tilde. -/
theorem runBytes_noNT : ∀ (w : List Nat) (s : EscState),
    (s = .escape_idle ∨ ((s = .escape_cr ∨ s = .escape_lf) ∧
      ∀ c, w.head? = some c → c ≠ 126)) →
    noNT w = true →
    (runBytes s w).out = w ∧ (runBytes s w).brk = 0 := by
  intro w
  induction w with
  | nil =>
    intro s _ _
    exact ⟨rfl, rfl⟩
  | cons b rest ih =>
    intro s hok hnt
    have hnt' := noNT_cons_tail hnt
    have hheadOf : ∀ {a : Nat}, a = 13 ∨ a = 10 → noNT (a :: rest) = true →
        ∀ c, rest.head? = some c → c ≠ 126 := by
      intro a ha hna c hc
      cases rest with
      | nil => simp at hc
      | cons x r =>
        simp only [List.head?_cons, Option.some.injEq] at hc
        subst hc
        exact noNT_pair hna ha
    have hidle : (runBytes .escape_idle (b :: rest)).out = b :: rest ∧
        (runBytes .escape_idle (b :: rest)).brk = 0 := by
      by_cases hb13 : b = 13
      · subst hb13
        obtain ⟨ho, hb⟩ := ih .escape_cr (Or.inr ⟨Or.inl rfl, hheadOf (Or.inl rfl) hnt⟩) hnt'
        rw [runBytes_cons, show stepB .escape_idle 13 = ⟨[13], 0, .escape_cr⟩ from by decide]
        simp [ho, hb]
      · by_cases hb10 : b = 10
        · subst hb10
          obtain ⟨ho, hb⟩ := ih .escape_lf (Or.inr ⟨Or.inr rfl, hheadOf (Or.inr rfl) hnt⟩) hnt'
          rw [runBytes_cons, show stepB .escape_idle 10 = ⟨[10], 0, .escape_lf⟩ from by decide]
          simp [ho, hb]
        · obtain ⟨ho, hb⟩ := ih .escape_idle (Or.inl rfl) hnt'
          rw [runBytes_cons, stepB_idle_plain hb13 hb10]
          simp [ho, hb]
    cases s with
    | escape_idle => exact hidle
    | escape_cr =>
      rcases hok with h | ⟨_, hhead⟩
      · exact absurd h (by simp)
      · have hb : b ≠ 126 := hhead b rfl
        rw [runBytes_cr_eq_idle' hb]
        exact hidle
    | escape_lf =>
      rcases hok with h | ⟨_, hhead⟩
      · exact absurd h (by simp)
      · have hb : b ≠ 126 := hhead b rfl
        rw [runBytes_lf_eq_idle hb]
        exact hidle
    | escape_leader =>
      rcases hok with h | ⟨h, _⟩
      · exact absurd h (by simp)
      · rcases h with h | h <;> exact absurd h (by simp)

/-- Claim C2: any client input containing no escape sequence of the
grammar (no newline byte immediately followed by the tilde leader) is
forwarded to the console output sink byte-identical and in order, with
no break side effect, under every way of chunking the input across
successive reads. -/
theorem escape_free_chunk_invariance (w : List Nat) (cs : List (List Nat))
    (hjoin : cs.flatten = w) (hw : noNT w = true) :
    (feedChunks .escape_idle cs).out = w ∧ (feedChunks .escape_idle cs).brk = 0 := by
  have hchunks : ∀ c ∈ cs, 13 ∉ c ∨ noNT c = true := by
    intro c hc
    right
    obtain ⟨a, b, hab⟩ := join_split cs c hc
    have h1 : noNT (c ++ b) = true := by
      apply noNT_append_right a
      rw [← hab, hjoin]
      exact hw
    exact noNT_append_left c b h1
  rw [feedChunks_eq_runBytes cs .escape_idle hchunks, hjoin]
  exact runBytes_noNT w .escape_idle (Or.inl rfl) hw

theorem escape_free_chunk_invariance_witness :
    (feedChunks .escape_idle [[104, 10], [105]]).out = [104, 10, 105] ∧
    (feedChunks .escape_idle [[104, 10], [105]]).brk = 0 :=
  escape_free_chunk_invariance [104, 10, 105] [[104, 10], [105]] rfl (by decide)

/-- Claim C4 counterexample: from the idle state the input CR LF '~' 'B'
does trigger exactly one break, but it contributes the two newline bytes
to the output sink, not zero bytes. -/
theorem break_escape_emits_newline :
    (feed .escape_idle [13, 10, 126, 66]).brk = 1 ∧
    (feed .escape_idle [13, 10, 126, 66]).out = [13, 10] ∧
    (feed .escape_idle [13, 10, 126, 66]).out ≠ [] := by decide

/-- Claim C4 (amended): from the idle state the input CR LF '~' 'B'
triggers exactly one break side effect and contributes exactly the
newline bytes CR LF to the output sink; the '~' 'B' portion is fully
swallowed, matching the spec scenario where "hello\r~Bworld" yields
"hello\r", one break, then "world". -/
theorem break_escape_amended :
    feed .escape_idle [13, 10, 126, 66] = ⟨[13, 10], 1, .escape_idle, []⟩ ∧
    feedChunks .escape_idle
        [[104, 101, 108, 108, 111, 13, 126, 66, 119, 111, 114, 108, 100]] =
      ⟨[104, 101, 108, 108, 111, 13, 119, 111, 114, 108, 100], 1, .escape_idle⟩ := by
  decide

/-- Claim C5: the input LF '~' '~' from the idle state yields exactly
the newline and one literal tilde at the output sink, under every split
of the input into reads; and the three reads "abc\r", "~", "~def"
yield exactly "abc\r~def". -/
theorem tilde_escape_spec :
    (∀ cs : List (List Nat), cs.flatten = [10, 126, 126] →
        (feedChunks .escape_idle cs).out = [10, 126] ∧
        (feedChunks .escape_idle cs).brk = 0) ∧
    feedChunks .escape_idle [[97, 98, 99, 13], [126], [126, 100, 101, 102]] =
      ⟨[97, 98, 99, 13, 126, 100, 101, 102], 0, .escape_idle⟩ := by
  constructor
  · intro cs hjoin
    have hchunks : ∀ c ∈ cs, 13 ∉ c ∨ noNT c = true := by
      intro c hc
      left
      intro hmem
      have h13 : (13 : Nat) ∈ cs.flatten := by
        obtain ⟨a, b, hab⟩ := join_split cs c hc
        rw [hab]
        exact List.mem_append_right a (List.mem_append_left b hmem)
      rw [hjoin] at h13
      simp at h13
    rw [feedChunks_eq_runBytes cs .escape_idle hchunks, hjoin]
    exact ⟨by decide, by decide⟩
  · decide

theorem tilde_escape_spec_witness :
    (feedChunks .escape_idle [[10], [126, 126]]).out = [10, 126] ∧
    (feedChunks .escape_idle [[10], [126, 126]]).brk = 0 :=
  tilde_escape_spec.1 [[10], [126, 126]] rfl

theorem pbr_used_le (s : EscState) (l : List Nat) :
    (process_buffer_range s l).used ≤ l.length := by
  cases l with
  | nil => simp [process_buffer_range]
  | cons b rest =>
    have hne : (b :: rest : List Nat) ≠ [] := by simp
    cases s with
    | escape_idle =>
      cases h13 : memchr 13 (b :: rest) with
      | some i =>
        rw [pbr_idle_some13 hne h13]
        have := (memchr_eq_some h13).1
        show i + 1 ≤ (b :: rest).length
        omega
      | none =>
        cases h10 : memchr 10 (b :: rest) with
        | some i =>
          rw [pbr_idle_some10 hne h13 h10]
          have := (memchr_eq_some h10).1
          show i + 1 ≤ (b :: rest).length
          omega
        | none =>
          rw [pbr_idle_none hne h13 h10]
    | escape_cr =>
      simp only [process_buffer_range]
      split_ifs <;> simp
    | escape_lf =>
      simp only [process_buffer_range]
      split_ifs
      · simp
      · simp
    | escape_leader =>
      simp only [process_buffer_range]
      split_ifs
      · simp
      · simp
      · simp

theorem pbr_used_zero {s : EscState} {l : List Nat} (hne : l ≠ [])
    (hz : (process_buffer_range s l).used = 0) :
    (process_buffer_range s l).st = .escape_idle ∧ s ≠ .escape_idle := by
  cases l with
  | nil => exact absurd rfl hne
  | cons b rest =>
    cases s with
    | escape_idle =>
      exfalso
      cases h13 : memchr 13 (b :: rest) with
      | some i => rw [pbr_idle_some13 (by simp) h13] at hz; simp at hz
      | none =>
        cases h10 : memchr 10 (b :: rest) with
        | some i => rw [pbr_idle_some10 (by simp) h13 h10] at hz; simp at hz
        | none => rw [pbr_idle_none (by simp) h13 h10] at hz; simp at hz
    | escape_cr =>
      simp only [process_buffer_range] at hz ⊢
      split_ifs at hz ⊢
      all_goals simp_all
    | escape_lf =>
      simp only [process_buffer_range] at hz ⊢
      split_ifs at hz ⊢
      all_goals simp_all
    | escape_leader =>
      simp only [process_buffer_range] at hz ⊢
      split_ifs at hz ⊢
      all_goals simp_all

theorem pbr_idle_pos (l : List Nat) (hne : l ≠ []) :
    1 ≤ (process_buffer_range .escape_idle l).used := by
  cases l with
  | nil => exact absurd rfl hne
  | cons b rest =>
    cases h13 : memchr 13 (b :: rest) with
    | some i => rw [pbr_idle_some13 (by simp) h13]; show 1 ≤ i + 1; omega
    | none =>
      cases h10 : memchr 10 (b :: rest) with
      | some i => rw [pbr_idle_some10 (by simp) h13 h10]; show 1 ≤ i + 1; omega
      | none => rw [pbr_idle_none (by simp) h13 h10]; simp

theorem runChunkF_consumes : ∀ (fuel : Nat) (s : EscState) (l : List Nat),
    2 * l.length + escRank s < fuel → (runChunkF fuel s l).rem = [] := by
  intro fuel
  induction fuel with
  | zero => intro s l h; omega
  | succ n ih =>
    intro s l hfuel
    cases l with
    | nil => rw [runChunkF_nil]
    | cons b rest =>
      have hne : (b :: rest : List Nat) ≠ [] := by simp
      rw [runChunkF_succ hne n s]
      by_cases hz : (process_buffer_range s (b :: rest)).used = 0
      · obtain ⟨hst, hsne⟩ := pbr_used_zero hne hz
        have hrank : escRank s = 1 := escRank_of_ne_idle hsne
        apply ih
        rw [hst, hz]
        simp only [escRank, List.drop_zero]
        rw [hrank] at hfuel
        omega
      · apply ih
        have h1 := pbr_used_le s (b :: rest)
        have h2 := escRank_le_one (process_buffer_range s (b :: rest)).st
        have h3 := escRank_le_one s
        have h4 : ((b :: rest).drop (process_buffer_range s (b :: rest)).used).length =
            (b :: rest).length - (process_buffer_range s (b :: rest)).used :=
          List.length_drop _ _
        omega

/-- Claim C10: on a non-empty range `process_buffer_range` consumes at
most the whole range; when it consumes nothing it has moved to the idle
state; from the idle state it always consumes at least one byte; and
consequently the read loop of `client_poll` consumes every read
completely. -/
theorem process_buffer_progress (s : EscState) (l : List Nat) (hne : l ≠ []) :
    (process_buffer_range s l).used ≤ l.length ∧
    ((process_buffer_range s l).used = 0 →
      (process_buffer_range s l).st = .escape_idle) ∧
    (s = .escape_idle → 1 ≤ (process_buffer_range s l).used) ∧
    (feed s l).rem = [] := by
  refine ⟨pbr_used_le s l, fun h => (pbr_used_zero hne h).1,
    fun h => h ▸ pbr_idle_pos l hne, ?_⟩
  apply runChunkF_consumes
  have := escRank_le_one s
  omega

theorem process_buffer_progress_witness :
    (process_buffer_range .escape_cr [65]).used ≤ [65].length ∧
    ((process_buffer_range .escape_cr [65]).used = 0 →
      (process_buffer_range .escape_cr [65]).st = .escape_idle) ∧
    (EscState.escape_cr = .escape_idle →
      1 ≤ (process_buffer_range .escape_cr [65]).used) ∧
    (feed .escape_cr [65]).rem = [] :=
  process_buffer_progress .escape_cr [65] (by decide)

theorem sag_done {block : Bool} {buf : List Nat} {pos : Nat} {trace : List SendRes}
    (h : buf.length ≤ pos) :
    send_all_go block buf pos trace = some ⟨(pos : Int), [], [], false, trace⟩ := by
  cases trace with
  | nil => simp [send_all_go, h]
  | cons r rest => cases r <;> simp [send_all_go, h]

theorem sag_nil {block : Bool} {buf : List Nat} {pos : Nat} (h : pos < buf.length) :
    send_all_go block buf pos [] = none := by
  simp only [send_all_go]
  rw [if_neg (by omega)]

theorem sag_sent0 {block : Bool} {buf : List Nat} {pos : Nat} {rest : List SendRes}
    (h : pos < buf.length) :
    send_all_go block buf pos (.sent 0 :: rest) = some ⟨-1, [], [pos], false, rest⟩ := by
  simp only [send_all_go]
  rw [if_neg (by omega)]
  rfl

theorem sag_sent {block : Bool} {buf : List Nat} {pos n : Nat} {rest : List SendRes}
    (h : pos < buf.length) (hn : n ≠ 0) :
    send_all_go block buf pos (.sent n :: rest) =
      match send_all_go block buf (pos + min n (buf.length - pos)) rest with
      | none => none
      | some o =>
        some ⟨o.ret, (buf.drop pos).take (min n (buf.length - pos)) ++ o.written,
          pos :: o.reqs, o.setBlocked, o.rest⟩ := by
  simp only [send_all_go]
  rw [if_neg (by omega), if_neg hn]

theorem sag_eagain {block : Bool} {buf : List Nat} {pos : Nat} {rest : List SendRes}
    (h : pos < buf.length) :
    send_all_go block buf pos (.eagain :: rest) =
      (if block then some ⟨-1, [], [pos], false, rest⟩
       else some ⟨(pos : Int), [], [pos], true, rest⟩) := by
  simp only [send_all_go]
  rw [if_neg (by omega)]

theorem sag_eintr {block : Bool} {buf : List Nat} {pos : Nat} {rest : List SendRes}
    (h : pos < buf.length) :
    send_all_go block buf pos (.eintr :: rest) =
      (if pos = 0 then some ⟨-1, [], [pos], false, rest⟩
       else
         match send_all_go block buf (pos - 1) rest with
         | none => none
         | some o => some ⟨o.ret, o.written, pos :: o.reqs, o.setBlocked, o.rest⟩) := by
  simp only [send_all_go]
  rw [if_neg (by omega)]

theorem sag_efail {block : Bool} {buf : List Nat} {pos : Nat} {rest : List SendRes}
    (h : pos < buf.length) :
    send_all_go block buf pos (.efail :: rest) = some ⟨-1, [], [pos], false, rest⟩ := by
  simp only [send_all_go]
  rw [if_neg (by omega)]

theorem rb_peek_take (q : List Nat) (w o k : Nat) (hk : k ≤ (rb_peek q w o).length) :
    (rb_peek q w o).take k = (q.drop o).take k := by
  unfold rb_peek at hk ⊢
  split_ifs at hk ⊢ with h
  · rw [List.take_take]
    congr 1
    simp only [List.length_take] at hk
    omega
  · rfl

theorem rb_peek_length_le (q : List Nat) (w o : Nat) :
    (rb_peek q w o).length ≤ q.length - o := by
  unfold rb_peek
  split_ifs with h
  · simp only [List.length_take, List.length_drop]
    omega
  · simp [List.length_drop]

theorem rb_peek_eq_nil_iff (q : List Nat) (w o : Nat) :
    rb_peek q w o = [] ↔ q.length ≤ o := by
  unfold rb_peek
  split_ifs with h
  · constructor
    · intro he
      have hlen := congrArg List.length he
      simp only [List.length_take, List.length_drop, List.length_nil] at hlen
      omega
    · intro hlen
      rw [List.drop_eq_nil_of_le hlen]
      simp
  · constructor
    · intro he
      have hlen := congrArg List.length he
      simp only [List.length_drop, List.length_nil] at hlen
      omega
    · intro hlen
      exact List.drop_eq_nil_of_le hlen

theorem cdq_loop_zero (peek : Nat → List Nat) (block : Bool) (force : Nat) (bl : Bool)
    (total : Nat) (wlen : Int) (w : List Nat) (tr : List SendRes) :
    cdq_loop peek block force 0 bl total wlen w tr = none := rfl

theorem cdq_loop_succ (peek : Nat → List Nat) (block : Bool) (force fuel : Nat)
    (bl : Bool) (total : Nat) (wlen : Int) (w : List Nat) (tr : List SendRes) :
    cdq_loop peek block force (fuel + 1) bl total wlen w tr =
      (if (peek total).isEmpty then some (cdq_finish force total wlen w bl tr)
       else
         match send_all block (peek total) tr with
         | none => none
         | some o =>
           if o.ret ≤ 0 then
             some (cdq_finish force total o.ret (w ++ o.written) (bl || o.setBlocked) o.rest)
           else
             if force ≠ 0 ∧ force ≤ total + o.ret.toNat then
               some (cdq_finish force (total + o.ret.toNat) o.ret (w ++ o.written)
                 (bl || o.setBlocked) o.rest)
             else
               cdq_loop peek block force fuel (bl || o.setBlocked) (total + o.ret.toNat)
                 o.ret (w ++ o.written) o.rest) := rfl

theorem cdq_finish_char (f t : Nat) (wl : Int) (wr : List Nat) (bl : Bool)
    (tr : List SendRes) :
    ((cdq_finish f t wl wr bl tr).ret = 0 ∨ (cdq_finish f t wl wr bl tr).ret = -1) ∧
    ((cdq_finish f t wl wr bl tr).ret = -1 ↔ (wl < 0 ∨ (f ≠ 0 ∧ t < f))) ∧
    ((cdq_finish f t wl wr bl tr).ret = 0 → (cdq_finish f t wl wr bl tr).commit = some t) ∧
    ((cdq_finish f t wl wr bl tr).ret = -1 → (cdq_finish f t wl wr bl tr).commit = none) ∧
    (cdq_finish f t wl wr bl tr).total = t ∧
    (cdq_finish f t wl wr bl tr).wlen = wl ∧
    (cdq_finish f t wl wr bl tr).written = wr ∧
    (cdq_finish f t wl wr bl tr).blocked = bl ∧
    (cdq_finish f t wl wr bl tr).rest = tr := by
  unfold cdq_finish
  split_ifs with h1 h2
  · exact ⟨Or.inr rfl, by simp [h1],
      fun h => absurd (show (-1 : Int) = 0 from h) (by decide),
      fun _ => rfl, rfl, rfl, rfl, rfl, rfl⟩
  · exact ⟨Or.inr rfl, by simp [h2],
      fun h => absurd (show (-1 : Int) = 0 from h) (by decide),
      fun _ => rfl, rfl, rfl, rfl, rfl, rfl⟩
  · refine ⟨Or.inl rfl, by simp [h1, h2], fun _ => rfl, ?_, rfl, rfl, rfl, rfl, rfl⟩
    intro h
    exact h.elim

theorem client_drain_queue_unblocked (peek : Nat → List Nat) (force : Nat)
    (trace : List SendRes) :
    client_drain_queue peek false force trace =
      cdq_loop peek (force != 0) force (trace.length + 1) false 0 0 [] trace := by
  unfold client_drain_queue
  rw [Bool.and_false]
  rfl

theorem sag_eagain_run : ∀ (ns : List Nat) (buf : List Nat) (pos : Nat)
    (rest : List SendRes), (∀ n ∈ ns, 0 < n) → pos + ns.sum < buf.length →
    ∃ o, send_all_go false buf pos (ns.map SendRes.sent ++ SendRes.eagain :: rest) =
        some o ∧ o.ret = ((pos + ns.sum : Nat) : Int) ∧ o.setBlocked = true ∧
        o.written = (buf.drop pos).take ns.sum ∧ o.rest = rest := by
  intro ns
  induction ns with
  | nil =>
    intro buf pos rest _ hlen
    simp only [List.map_nil, List.nil_append, List.sum_nil]
    have hlt : pos < buf.length := by omega
    rw [sag_eagain hlt, if_neg (by simp)]
    exact ⟨_, rfl, by simp, rfl, by simp, rfl⟩
  | cons n ns' ih =>
    intro buf pos rest hpos hlen
    have hn : 0 < n := hpos n (by simp)
    have hsum : (n :: ns').sum = n + ns'.sum := by simp
    have hlt : pos < buf.length := by
      rw [hsum] at hlen
      omega
    have hm : min n (buf.length - pos) = n := by
      rw [hsum] at hlen
      omega
    simp only [List.map_cons, List.cons_append]
    rw [sag_sent hlt (by omega), hm]
    obtain ⟨o', ho', hret', hsb', hw', hrest'⟩ :=
      ih buf (pos + n) rest (fun m hm' => hpos m (by simp [hm'])) (by rw [hsum] at hlen; omega)
    rw [ho']
    refine ⟨_, rfl, ?_, hsb', ?_, hrest'⟩
    · show o'.ret = _
      rw [hret', hsum]
      congr 1
      omega
    · show (buf.drop pos).take n ++ o'.written = (buf.drop pos).take (n :: ns').sum
      rw [hw', hsum, ← List.drop_drop, ← List.take_add]

/-- Claim C7: when no flush is forced and fewer than 512 bytes are
pending, the notification arms the 4000 microsecond inactivity timer and
returns continue without draining; otherwise it drains, returning
continue on success, and on failure it performs, in order: the drain,
clearing the consumer-cursor reference, closing the client, and then
returns remove to the caller. -/
theorem ringbuffer_poll_spec (queue : List Nat) (wrap : Nat) (blocked : Bool)
    (force : Nat) (trace : List SendRes) :
    (force = 0 → queue.length < 512 →
      client_ringbuffer_poll queue wrap blocked force trace =
        some ⟨.ok, [.setTimeout 4000], none⟩) ∧
    (∀ out, ¬(force = 0 ∧ queue.length < 512) →
      client_drain_queue (rb_peek queue wrap) blocked force trace = some out →
      (out.ret = 0 → client_ringbuffer_poll queue wrap blocked force trace =
          some ⟨.ok, [.drainQ], some out⟩) ∧
      (out.ret ≠ 0 → client_ringbuffer_poll queue wrap blocked force trace =
          some ⟨.remove, [.drainQ, .clearRbc, .closeClient], some out⟩)) := by
  constructor
  · intro hf hlen
    unfold client_ringbuffer_poll
    rw [if_pos ⟨hf, by simpa [SOCKET_HANDLER_PKT_SIZE] using hlen⟩]
    rfl
  · intro out hcond hdq
    constructor
    · intro hr
      unfold client_ringbuffer_poll
      rw [if_neg (by simpa [SOCKET_HANDLER_PKT_SIZE] using hcond), hdq]
      dsimp only
      rw [if_pos hr]
    · intro hr
      unfold client_ringbuffer_poll
      rw [if_neg (by simpa [SOCKET_HANDLER_PKT_SIZE] using hcond), hdq]
      dsimp only
      rw [if_neg hr]

theorem ringbuffer_poll_spec_witness :
    client_ringbuffer_poll [1] 0 false 0 [] = some ⟨.ok, [.setTimeout 4000], none⟩ :=
  (ringbuffer_poll_spec [1] 0 false 0 []).1 rfl (by decide)

theorem findClient_lt_iff (c : Nat) : ∀ (cs : List Nat),
    findClient c cs < cs.length ↔ c ∈ cs := by
  intro cs
  induction cs with
  | nil => simp [findClient]
  | cons x rest ih =>
    by_cases hx : x = c
    · subst hx
      simp [findClient]
    · simp only [findClient, hx, if_false, List.length_cons, List.mem_cons]
      constructor
      · intro h
        exact Or.inr (ih.mp (by omega))
      · intro h
        rcases h with h | h
        · exact absurd h.symm hx
        · have := ih.mpr h
          omega

theorem findClient_decomp (c : Nat) : ∀ (cs : List Nat), c ∈ cs →
    cs = cs.take (findClient c cs) ++ c :: cs.drop (findClient c cs + 1) ∧
    c ∉ cs.take (findClient c cs) := by
  intro cs
  induction cs with
  | nil => intro h; simp at h
  | cons x rest ih =>
    intro hmem
    by_cases hx : x = c
    · subst hx
      simp [findClient]
    · have hmem' : c ∈ rest := by
        rcases List.mem_cons.mp hmem with h | h
        · exact absurd h.symm hx
        · exact h
      obtain ⟨hdec, hnotin⟩ := ih hmem'
      simp only [findClient, hx, if_false]
      constructor
      · show x :: rest = x :: rest.take (findClient c rest) ++
          c :: rest.drop (findClient c rest + 1)
        rw [List.cons_append]
        congr 1
      · simp only [List.take_succ_cons, List.mem_cons, not_or]
        exact ⟨fun h => hx h.symm, hnotin⟩

/-- Claim C8: the close sequence runs exactly the ordered steps (close
descriptor; unregister poller only if held; unregister consumer only if
held; remove from the set; free); a client absent from the connection
set makes close fail the assertion (modelled as none) rather than
silently no-op; removal deletes exactly one occurrence; and with the
accept step appending only fresh clients, an open client appears exactly
once and a closed client is absent. -/
theorem client_close_spec :
    (∀ (fd : Nat) (hp hr : Bool) (cs : List Nat) (c : Nat), c ∉ cs →
        client_close fd hp hr cs c = none) ∧
    (∀ (fd : Nat) (hp hr : Bool) (cs : List Nat) (c : Nat), c ∈ cs →
        ∃ cs', client_close fd hp hr cs c =
            some (cs', [CloseAct.closeFd fd]
              ++ (if hp then [CloseAct.unregPoller] else [])
              ++ (if hr then [CloseAct.unregRbc] else [])
              ++ [CloseAct.removeAt (findClient c cs), CloseAct.freeClient]) ∧
          cs'.count c + 1 = cs.count c ∧ cs'.length + 1 = cs.length ∧
          (cs.Nodup → c ∉ cs' ∧ cs'.Nodup)) ∧
    (∀ (cs : List Nat) (c : Nat), c ∉ cs →
        (socket_accept cs c).count c = 1 ∧
        (cs.Nodup → (socket_accept cs c).Nodup)) := by
  refine ⟨?_, ?_, ?_⟩
  · intro fd hp hr cs c hmem
    simp only [client_close]
    rw [if_neg (fun hlt => hmem ((findClient_lt_iff c cs).mp hlt))]
  · intro fd hp hr cs c hmem
    obtain ⟨hdec, hnotin⟩ := findClient_decomp c cs hmem
    have hlt : findClient c cs < cs.length := (findClient_lt_iff c cs).mpr hmem
    refine ⟨cs.take (findClient c cs) ++ cs.drop (findClient c cs + 1), ?_, ?_, ?_, ?_⟩
    · simp only [client_close]
      rw [if_pos hlt]
    · have htake0 : (cs.take (findClient c cs)).count c = 0 :=
        List.count_eq_zero.mpr hnotin
      rw [List.count_append]
      conv_rhs => rw [hdec]
      rw [List.count_append, List.count_cons_self, htake0]
      omega
    · have hlen := congrArg List.length hdec
      simp only [List.length_append, List.length_cons] at hlen
      simp only [List.length_append]
      omega
    · intro hnd
      have hnd' : (cs.take (findClient c cs) ++ c :: cs.drop (findClient c cs + 1)).Nodup := by
        rw [← hdec]
        exact hnd
      have hcount1 : cs.count c ≤ 1 := List.nodup_iff_count_le_one.mp hnd c
      have htake0 : (cs.take (findClient c cs)).count c = 0 :=
        List.count_eq_zero.mpr hnotin
      constructor
      · rw [← List.count_eq_zero, List.count_append]
        have hc : cs.count c = (cs.take (findClient c cs)).count c +
            (c :: cs.drop (findClient c cs + 1)).count c := by
          conv_lhs => rw [hdec]
          rw [List.count_append]
        rw [List.count_cons_self, htake0] at hc
        omega
      · apply List.Nodup.sublist _ hnd'
        apply List.Sublist.append_left
        exact List.sublist_cons_of_sublist c (List.Sublist.refl _)
  · intro cs c hmem
    constructor
    · unfold socket_accept
      rw [List.count_append, List.count_eq_zero.mpr hmem]
      simp
    · intro hnd
      unfold socket_accept
      rw [List.nodup_append]
      refine ⟨hnd, by simp, ?_⟩
      intro a ha hac
      rw [List.mem_singleton] at hac
      subst hac
      exact hmem ha

theorem client_close_spec_witness :
    client_close 5 true false [1, 2, 3] 9 = none ∧
    (socket_accept [1, 2] 3).count 3 = 1 :=
  ⟨client_close_spec.1 5 true false [1, 2, 3] 9 (by decide),
   (client_close_spec.2.2 [1, 2] 3 (by decide)).1⟩

/-- Claim C9 counterexample: allocation failure and consumer-registration
failure are different causes but return the same error value -ENOMEM, so
the error values are not distinct per cause. -/
theorem dbus_error_not_distinct :
    (dbus_create_socket_consumer [socketName] (some (3, 4)) 9 false true).ret = -12 ∧
    (dbus_create_socket_consumer [socketName] (some (3, 4)) 9 true false).ret = -12 ∧
    (dbus_create_socket_consumer [socketName] (some (3, 4)) 9 false true).freedClient ≠
      (dbus_create_socket_consumer [socketName] (some (3, 4)) 9 true false).freedClient := by
  refine ⟨rfl, rfl, ?_⟩
  intro h
  exact absurd h (by decide)

/-- Claim C9 (amended): each failure path of the programmatic attach
releases the partially created resources and returns a negative error
identifying the cause (-ENOSYS for a missing server, the negated
socketpair errno, -ENOMEM for allocation failure, and -ENOMEM again for
consumer-registration failure — the last two share the same value); on
success it returns the non-negative caller-side descriptor of the
pair. -/
theorem dbus_create_spec (handlers : List String) (pair : Option (Nat × Nat))
    (perr : Nat) (mOk rOk : Bool) :
    (socketName ∉ handlers →
      dbus_create_socket_consumer handlers pair perr mOk rOk =
        ⟨-(ENOSYS : Int), [], false, false⟩ ∧ -(ENOSYS : Int) < 0) ∧
    (socketName ∈ handlers → pair = none →
      dbus_create_socket_consumer handlers pair perr mOk rOk =
        ⟨-(perr : Int), [], false, false⟩) ∧
    (∀ a b, socketName ∈ handlers → pair = some (a, b) → mOk = false →
      dbus_create_socket_consumer handlers pair perr mOk rOk =
        ⟨-(ENOMEM : Int), [a, b], false, false⟩ ∧ -(ENOMEM : Int) < 0) ∧
    (∀ a b, socketName ∈ handlers → pair = some (a, b) → mOk = true → rOk = false →
      dbus_create_socket_consumer handlers pair perr mOk rOk =
        ⟨-(ENOMEM : Int), [a, b], true, false⟩) ∧
    (∀ a b, socketName ∈ handlers → pair = some (a, b) → mOk = true → rOk = true →
      dbus_create_socket_consumer handlers pair perr mOk rOk =
        ⟨(b : Int), [], false, true⟩ ∧ 0 ≤ ((b : Nat) : Int)) := by
  refine ⟨?_, ?_, ?_, ?_, ?_⟩
  · intro hmem
    unfold dbus_create_socket_consumer
    rw [if_pos hmem]
    exact ⟨rfl, by norm_num [ENOSYS]⟩
  · intro hmem hpair
    subst hpair
    unfold dbus_create_socket_consumer
    rw [if_neg (by simpa using hmem)]
  · intro a b hmem hpair hmok
    subst hpair hmok
    unfold dbus_create_socket_consumer
    rw [if_neg (by simpa using hmem)]
    dsimp only
    exact ⟨by rw [if_pos (by simp)], by norm_num [ENOMEM]⟩
  · intro a b hmem hpair hmok hrok
    subst hpair hmok hrok
    unfold dbus_create_socket_consumer
    rw [if_neg (by simpa using hmem)]
    dsimp only
    rw [if_neg (by simp), if_pos (by simp)]
  · intro a b hmem hpair hmok hrok
    subst hpair hmok hrok
    unfold dbus_create_socket_consumer
    rw [if_neg (by simpa using hmem)]
    dsimp only
    rw [if_neg (by simp), if_neg (by simp)]
    exact ⟨rfl, by omega⟩

theorem dbus_create_spec_witness :
    dbus_create_socket_consumer [] (some (3, 4)) 9 true true =
      ⟨-(ENOSYS : Int), [], false, false⟩ ∧ -(ENOSYS : Int) < 0 :=
  (dbus_create_spec [] (some (3, 4)) 9 true true).1 (by simp)

/-- Claim C3 (code bug): an interrupted call is not retried without
consuming or skipping input.  The C `continue` executes the for loop's
increment `pos += rc` with rc = -1, so: before any byte is sent the
size_t offset wraps and send_all returns -1 instead of retrying, and
after a partial transfer the retry is issued one byte earlier — the
request offsets are 0, 1, 0 and byte 5 is handed to the kernel twice. -/
theorem send_all_eintr_bug :
    send_all false [5, 6] [SendRes.eintr, SendRes.sent 2] =
      some ⟨-1, [], [0], false, [SendRes.sent 2]⟩ ∧
    send_all false [5, 6] [SendRes.sent 1, SendRes.eintr, SendRes.sent 2] =
      some ⟨2, [5, 5, 6], [0, 1, 0], false, []⟩ ∧
    ([5, 5, 6] : List Nat) ≠ [5, 6] := by decide

/-- Claim C1 (code bug): the drain's guarantee that already-sent bytes
are never re-sent fails through send_all's EINTR slip: draining queue
[5, 6] with send results (1 byte accepted, EINTR, 2 bytes accepted)
hands the bytes 5, 5, 6 to the kernel — byte 5 twice — while total_len
accumulates only 2, so the commit (2) is not the number of bytes
actually sent (3) and an already-sent byte is retransmitted. -/
theorem client_drain_queue_eintr_bug :
    client_drain_queue (rb_peek [5, 6] 10) false 0
        [SendRes.sent 1, SendRes.eintr, SendRes.sent 2] =
      some ⟨0, some 2, 2, 2, [5, 5, 6], false, []⟩ ∧
    ([5, 5, 6] : List Nat) ≠ [5, 6] ∧
    ([5, 5, 6] : List Nat).length ≠ 2 := by decide

/-- Claim C6 (code bug): the blocked gating itself holds — a blocked
unforced drain returns immediately with no send attempt and no commit,
and the blocked idle-timer callback does nothing — but the recovery's
"exactly the uncommitted remainder, no byte duplicated" fails through
send_all's EINTR slip: a writability recovery drain of queue [5, 6]
whose send results are (1 byte accepted, EINTR, 2 bytes accepted)
reports success while handing 5, 5, 6 to the kernel, duplicating the
already-sent byte 5. -/
theorem blocked_recovery_eintr_bug :
    client_drain_queue (rb_peek [5, 6] 10) true 0 [SendRes.sent 2] =
      some ⟨0, none, 0, 0, [], true, [SendRes.sent 2]⟩ ∧
    client_timeout true (rb_peek [5, 6] 10) [SendRes.sent 2] = (.ok, none) ∧
    client_poll_out (rb_peek [5, 6] 10)
        [SendRes.sent 1, SendRes.eintr, SendRes.sent 2] =
      (.ok, some ⟨0, some 2, 2, 2, [5, 5, 6], false, []⟩) ∧
    ([5, 5, 6] : List Nat) ≠ [5, 6] := by decide
